import Mathlib

/-!
Verification of the tabular-frame and grid-array manipulation semantics
described by the specification of this repository (a literate chapter on
attribute-data operations).  The chapter's own code only calls the
operations; the operations themselves (joins, positional slicing, grouped
aggregation, grid indexing and reductions) are therefore modelled here from
the specification's contracts, and the stated properties are proved about
these models.
-/

/-- Modelled from the spec: a cell value of a TabularFrame column — a
numeric value (modelled as an integer: the verified frame operations only
compare and sum cells), a text value, or the missing-value marker.
Geometry values are opaque and are carried like any other value. -/
inductive Val where
  | num (z : ℤ)
  | str (s : String)
  | na
deriving DecidableEq

/-- Modelled from the spec: the error kinds of the error-handling design —
out-of-range positional access, unknown column or label reference, shape or
collision errors, and incompatible element types. -/
inductive ErrKind where
  | indexError
  | keyError
  | valueError
  | typeError
deriving DecidableEq

/-- Modelled from the spec: an ordered, labeled 2-D data container — an
ordered sequence of column names, an ordered sequence of row labels, the rows
(each row listing its values in column order), and optionally the name of the
designated geometry column. -/
structure TabularFrame where
  columns : List String
  labels : List Nat
  rows : List (List Val)
  geometry : Option String
deriving DecidableEq

/-- Modelled from the spec: the row part of positional slicing
(select_by_position) with a half-open range [a, b) — keeps all columns and
the selected rows together with their labels, like iloc row slicing in the
chapter; an empty or out-of-range tail of the range yields fewer rows, not an
error. -/
def TabularFrame.select_rows_range (f : TabularFrame) (a b : Nat) : TabularFrame :=
  { columns := f.columns
    labels := (f.labels.drop a).take (b - a)
    rows := (f.rows.drop a).take (b - a)
    geometry := f.geometry }

/-- Modelled from the spec: row slicing when only a stop value is given — the
start defaults to 0. -/
def TabularFrame.select_rows_to (f : TabularFrame) (b : Nat) : TabularFrame :=
  f.select_rows_range 0 b

/-- Modelled from the spec: drop_rows removes the rows whose label is in the
given list, keeps the remaining rows in original relative order, and ignores
unknown labels (delete-if-present, never an error). -/
def TabularFrame.drop_rows (f : TabularFrame) (dels : List Nat) : TabularFrame :=
  { columns := f.columns
    labels := ((f.labels.zip f.rows).filter (fun p => decide (p.1 ∉ dels))).map Prod.fst
    rows := ((f.labels.zip f.rows).filter (fun p => decide (p.1 ∉ dels))).map Prod.snd
    geometry := f.geometry }

/-- Modelled from the spec: a grid element — a (rational-valued) number or
the missing-value marker (the NaN-like sentinel). -/
inductive FVal where
  | num (q : ℚ)
  | na
deriving DecidableEq

/-- Modelled from the spec: the element datatype of a GridArray, integer or
floating-point; only the floating-point type can represent the
missing-value marker. -/
inductive DType where
  | int
  | float
deriving DecidableEq

/-- Modelled from the spec: an N-dimensional numeric array — element
datatype, shape as an ordered tuple of dimension sizes, and a dense buffer of
elements in row-major layout. -/
structure GridArray where
  dtype : DType
  shape : List Nat
  buffer : List FVal
deriving DecidableEq

/-- Modelled from the spec: single-element indexed write on a two-dimensional
GridArray.  Out-of-range indices fail with an IndexError-kind error; writing
the missing-value marker into an integer-typed buffer fails with a
TypeError-kind error; otherwise the element at row i, column j of the
row-major buffer is overwritten. -/
def GridArray.set2 (g : GridArray) (i j : Nat) (v : FVal) : Except ErrKind GridArray :=
  match g.shape with
  | [nr, nc] =>
    if i < nr ∧ j < nc then
      if v = FVal.na ∧ g.dtype = DType.int then Except.error ErrKind.typeError
      else Except.ok { g with buffer := g.buffer.set (i * nc + j) v }
    else Except.error ErrKind.indexError
  | _ => Except.error ErrKind.indexError

/-- Modelled from the spec: the net effect of the in-place single-element
write — operations are all-or-nothing, so on error the buffer is
unchanged. -/
def GridArray.set2run (g : GridArray) (i j : Nat) (v : FVal) : GridArray :=
  match g.set2 i j v with
  | Except.ok g2 => g2
  | Except.error _ => g

/-- Modelled from the spec: indexed write where the index components are
ranges/slices — every element addressed by the cartesian product of the row
range [r0, r1) and the column range [c0, c1) of a two-dimensional array is
overwritten in place; slice bounds clamp to the shape.  Writing the
missing-value marker into an integer-typed buffer fails with a
TypeError-kind error. -/
def GridArray.setRect (g : GridArray) (r0 r1 c0 c1 : Nat) (v : FVal) :
    Except ErrKind GridArray :=
  match g.shape with
  | [_, nc] =>
    if v = FVal.na ∧ g.dtype = DType.int then Except.error ErrKind.typeError
    else Except.ok { g with buffer := g.buffer.mapIdx (fun idx x =>
        if r0 ≤ idx / nc ∧ idx / nc < r1 ∧ c0 ≤ idx % nc ∧ idx % nc < c1 then v else x) }
  | _ => Except.error ErrKind.indexError

/-- The reduction operations named by the spec for grid summaries. -/
inductive ROp where
  | mean
  | sum
  | min
  | max
deriving DecidableEq

/-- The numeric payloads of a buffer, in order; missing-value markers are
dropped. -/
def numsOf (l : List FVal) : List ℚ :=
  l.filterMap (fun v => match v with
    | FVal.num q => some q
    | FVal.na => none)

/-- The reduction operations on a plain list of numbers; the empty case is
settled by the callers, which never reach it. -/
def applyROp : ROp → List ℚ → ℚ
  | ROp.mean, l => l.sum / l.length
  | ROp.sum, l => l.sum
  | ROp.min, l =>
    match l with
    | [] => 0
    | x :: xs => xs.foldl Min.min x
  | ROp.max, l =>
    match l with
    | [] => 0
    | x :: xs => xs.foldl Max.max x

/-- Modelled from the spec: strict reduction — computes over all elements,
and if any element equals the missing-value marker the result is the marker
(propagation); reducing an empty buffer also yields the marker. -/
def GridArray.reduce (g : GridArray) (op : ROp) : FVal :=
  if FVal.na ∈ g.buffer ∨ g.buffer = [] then FVal.na
  else FVal.num (applyROp op (numsOf g.buffer))

/-- Modelled from the spec: missing-aware reduction — elements equal to the
missing-value marker are excluded from the computation; reducing an
all-missing (or empty) buffer is defined as the marker. -/
def GridArray.reduce_skip_missing (g : GridArray) (op : ROp) : FVal :=
  if numsOf g.buffer = [] then FVal.na
  else FVal.num (applyROp op (numsOf g.buffer))

/-- The arithmetic mean of the non-marker elements of a buffer, written the
way the spec phrases it. -/
def meanOfNonMissing (g : GridArray) : ℚ :=
  (numsOf g.buffer).sum / (numsOf g.buffer).length

/-- A sample three-row frame used to instantiate the slicing theorems. -/
def fEx : TabularFrame :=
  { columns := ["name_long", "pop"]
    labels := [0, 1, 2]
    rows := [[Val.str "a", Val.num 1], [Val.str "b", Val.num 2], [Val.str "c", Val.num 3]]
    geometry := none }

theorem getD_drop_take {α : Type} (l : List α) (d : α) (a k i : Nat)
    (h : i < ((l.drop a).take k).length) :
    ((l.drop a).take k).getD i d = l.getD (a + i) d := by
  have h1 : i < (l.drop a).length := lt_of_lt_of_le h (by simp [List.length_take])
  have h0 : a + i < l.length := by
    have h2 := h1
    simp [List.length_drop] at h2
    omega
  rw [List.getD_eq_getElem _ _ h, List.getD_eq_getElem _ _ h0,
    List.getElem_take, List.getElem_drop]

/-- Claim C2: positional row slicing with the half-open range [a, b) selects
exactly the rows at indices a, a + 1, …, b - 1 (start inclusive, stop
exclusive, clamped to the frame), the start defaults to 0 when omitted, and
on a frame with at least three rows the range [0, 3) returns exactly rows
0, 1, 2 and never row 3. -/
theorem select_rows_range_half_open (f : TabularFrame) (a b : Nat)
    (h3 : 3 ≤ f.rows.length) :
    (f.select_rows_range a b).rows.length = min (b - a) (f.rows.length - a) ∧
    (∀ i, i < (f.select_rows_range a b).rows.length →
      (f.select_rows_range a b).rows.getD i [] = f.rows.getD (a + i) []) ∧
    f.select_rows_to b = f.select_rows_range 0 b ∧
    (f.select_rows_range 0 3).rows =
      [f.rows.getD 0 [], f.rows.getD 1 [], f.rows.getD 2 []] ∧
    (f.select_rows_range 0 3).rows.length = 3 := by
  refine ⟨?_, ?_, rfl, ?_, ?_⟩
  · simp [TabularFrame.select_rows_range]
  · intro i hi
    exact getD_drop_take f.rows [] a (b - a) i hi
  · rcases hr : f.rows with _ | ⟨r0, tl0⟩
    · rw [hr] at h3; simp at h3
    · rcases hr1 : tl0 with _ | ⟨r1, tl1⟩
      · rw [hr, hr1] at h3; simp at h3
      · rcases hr2 : tl1 with _ | ⟨r2, tl2⟩
        · rw [hr, hr1, hr2] at h3; simp at h3
        · simp [TabularFrame.select_rows_range, hr, hr1, hr2, List.getD]
  · simp [TabularFrame.select_rows_range]
    omega

theorem select_rows_range_half_open_witness :
    3 ≤ fEx.rows.length ∧
    ((fEx.select_rows_range 1 3).rows.length = min (3 - 1) (fEx.rows.length - 1) ∧
    (∀ i, i < (fEx.select_rows_range 1 3).rows.length →
      (fEx.select_rows_range 1 3).rows.getD i [] = fEx.rows.getD (1 + i) []) ∧
    fEx.select_rows_to 3 = fEx.select_rows_range 0 3 ∧
    (fEx.select_rows_range 0 3).rows =
      [fEx.rows.getD 0 [], fEx.rows.getD 1 [], fEx.rows.getD 2 []] ∧
    (fEx.select_rows_range 0 3).rows.length = 3) :=
  ⟨by decide, select_rows_range_half_open fEx 1 3 (by decide)⟩

/-- A sample integer-typed 2 x 3 grid used to instantiate the write
theorems. -/
def gInt : GridArray :=
  { dtype := DType.int
    shape := [2, 3]
    buffer := [FVal.num 1, FVal.num 2, FVal.num 3, FVal.num 4, FVal.num 5, FVal.num 6] }

/-- Claim C4: at any valid index, writing the missing-value marker into an
integer-typed GridArray fails with a TypeError-kind error and leaves the
buffer unchanged, while the same write into a floating-point-typed array
succeeds. -/
theorem set_missing_marker_dtype (g : GridArray) (i j nr nc : Nat)
    (hs : g.shape = [nr, nc]) (hi : i < nr) (hj : j < nc) :
    (g.dtype = DType.int →
      g.set2 i j FVal.na = Except.error ErrKind.typeError ∧
      g.set2run i j FVal.na = g) ∧
    (g.dtype = DType.float →
      g.set2 i j FVal.na =
        Except.ok { g with buffer := g.buffer.set (i * nc + j) FVal.na }) := by
  constructor
  · intro hd
    have he : g.set2 i j FVal.na = Except.error ErrKind.typeError := by
      simp [GridArray.set2, hs, hi, hj, hd]
    exact ⟨he, by simp [GridArray.set2run, he]⟩
  · intro hd
    simp [GridArray.set2, hs, hi, hj, hd]

theorem set_missing_marker_dtype_witness :
    gInt.shape = [2, 3] ∧ 0 < 2 ∧ 2 < 3 ∧
    ((gInt.dtype = DType.int →
      gInt.set2 0 2 FVal.na = Except.error ErrKind.typeError ∧
      gInt.set2run 0 2 FVal.na = gInt) ∧
    (gInt.dtype = DType.float →
      gInt.set2 0 2 FVal.na =
        Except.ok { gInt with buffer := gInt.buffer.set (0 * 3 + 2) FVal.na })) :=
  ⟨rfl, by decide, by decide,
    set_missing_marker_dtype gInt 0 2 2 3 rfl (by decide) (by decide)⟩

/-- Claim C9: on a 3 x 4 integer GridArray, the sliced write that assigns 0
to row 0, columns [0, 3) overwrites exactly the elements at row-major
positions 0, 1, 2 (that is, cells (0,0), (0,1), (0,2)) and leaves every other
element, including cell (0,3) at position 3, unchanged. -/
theorem setRect_row_slice (buf : List FVal) (h : buf.length = 12) :
    ∃ g2 : GridArray,
      (GridArray.mk DType.int [3, 4] buf).setRect 0 1 0 3 (FVal.num 0) =
        Except.ok g2 ∧
      g2.dtype = DType.int ∧ g2.shape = [3, 4] ∧ g2.buffer.length = 12 ∧
      ∀ k, k < 12 →
        g2.buffer.getD k FVal.na =
          if k < 3 then FVal.num 0 else buf.getD k FVal.na := by
  refine ⟨⟨DType.int, [3, 4], buf.mapIdx (fun idx x =>
      if 0 ≤ idx / 4 ∧ idx / 4 < 1 ∧ 0 ≤ idx % 4 ∧ idx % 4 < 3 then FVal.num 0 else x)⟩,
    ?_, rfl, rfl, by simpa using h, ?_⟩
  · simp [GridArray.setRect]
  · intro k hk
    have hk2 : k < buf.length := by omega
    have hmi : k < (buf.mapIdx (fun idx x =>
        if 0 ≤ idx / 4 ∧ idx / 4 < 1 ∧ 0 ≤ idx % 4 ∧ idx % 4 < 3
        then FVal.num 0 else x)).length := by simpa using hk2
    rw [List.getD_eq_getElem _ _ hmi, List.getElem_mapIdx]
    by_cases hc : k < 3
    · rw [if_pos (show 0 ≤ k / 4 ∧ k / 4 < 1 ∧ 0 ≤ k % 4 ∧ k % 4 < 3 by omega), if_pos hc]
    · rw [if_neg (show ¬(0 ≤ k / 4 ∧ k / 4 < 1 ∧ 0 ≤ k % 4 ∧ k % 4 < 3) by omega),
        if_neg hc, List.getD_eq_getElem _ _ hk2]

theorem setRect_row_slice_witness :
    (List.replicate 12 (FVal.num 5)).length = 12 ∧
    (∃ g2 : GridArray,
      (GridArray.mk DType.int [3, 4] (List.replicate 12 (FVal.num 5))).setRect
          0 1 0 3 (FVal.num 0) = Except.ok g2 ∧
      g2.dtype = DType.int ∧ g2.shape = [3, 4] ∧ g2.buffer.length = 12 ∧
      ∀ k, k < 12 →
        g2.buffer.getD k FVal.na =
          if k < 3 then FVal.num 0
          else (List.replicate 12 (FVal.num 5)).getD k FVal.na) :=
  ⟨by decide, setRect_row_slice (List.replicate 12 (FVal.num 5)) (by decide)⟩

/-- A floating-point grid whose elements are all missing-value markers. -/
def gAllNa : GridArray :=
  { dtype := DType.float
    shape := [1, 2]
    buffer := [FVal.na, FVal.na] }

/-- A floating-point grid mixing numbers and one missing-value marker. -/
def gMix : GridArray :=
  { dtype := DType.float
    shape := [1, 3]
    buffer := [FVal.num 2, FVal.na, FVal.num 4] }

/-- A floating-point grid with no missing-value marker. -/
def gNoNa : GridArray :=
  { dtype := DType.float
    shape := [2, 2]
    buffer := [FVal.num 1, FVal.num 2, FVal.num 3, FVal.num 4] }

/-- Claim C3, counterexample: on an array every element of which is the
missing-value marker, the missing-aware mean returns the marker itself, not
the arithmetic mean of the (zero) non-marker elements — so the claim as
stated fails on all-marker arrays. -/
theorem reduce_skip_missing_all_missing_cex :
    gAllNa.reduce_skip_missing ROp.mean = FVal.na ∧
    FVal.na ≠ FVal.num (meanOfNonMissing gAllNa) := by
  decide

/-- Claim C3, amended: on a floating-point array that contains at least one
missing-value marker, the strict mean returns the marker, and — provided at
least one non-marker element exists — the missing-aware mean returns the
arithmetic mean of exactly the non-marker elements (an all-marker array
yields the marker instead). -/
theorem reduce_mean_missing_amended (g : GridArray)
    (h1 : FVal.na ∈ g.buffer) (h2 : numsOf g.buffer ≠ []) :
    g.reduce ROp.mean = FVal.na ∧
    g.reduce_skip_missing ROp.mean = FVal.num (meanOfNonMissing g) := by
  constructor
  · simp [GridArray.reduce, h1]
  · simp [GridArray.reduce_skip_missing, h2, meanOfNonMissing, applyROp]

theorem reduce_mean_missing_amended_witness :
    FVal.na ∈ gMix.buffer ∧ numsOf gMix.buffer ≠ [] ∧
    (gMix.reduce ROp.mean = FVal.na ∧
     gMix.reduce_skip_missing ROp.mean = FVal.num (meanOfNonMissing gMix)) :=
  ⟨by decide, by decide, reduce_mean_missing_amended gMix (by decide) (by decide)⟩

theorem numsOf_length_of_no_marker (l : List FVal) (h : FVal.na ∉ l) :
    (numsOf l).length = l.length := by
  induction l with
  | nil => rfl
  | cons x xs ih =>
    have hx : x ≠ FVal.na := by
      intro heq
      exact h (heq ▸ List.mem_cons_self x xs)
    have hxs : FVal.na ∉ xs := fun hm => h (List.mem_cons_of_mem x hm)
    cases x with
    | num q => simp [numsOf, List.filterMap] at ih ⊢; exact ih hxs
    | na => exact absurd rfl hx

/-- Claim C10: on a GridArray none of whose elements is the missing-value
marker, the strict reduction and the missing-aware reduction agree, for each
of the operations mean, sum, min and max. -/
theorem reduce_agrees_skip_no_missing (g : GridArray) (op : ROp)
    (h : FVal.na ∉ g.buffer) :
    g.reduce op = g.reduce_skip_missing op := by
  by_cases hb : g.buffer = []
  · simp [GridArray.reduce, GridArray.reduce_skip_missing, hb, numsOf]
  · have hn : numsOf g.buffer ≠ [] := by
      intro he
      have hl := numsOf_length_of_no_marker g.buffer h
      rw [he] at hl
      exact hb (List.length_eq_zero.mp hl.symm)
    simp [GridArray.reduce, GridArray.reduce_skip_missing, hb, hn, h]

theorem reduce_agrees_skip_no_missing_witness :
    FVal.na ∉ gNoNa.buffer ∧
    gNoNa.reduce ROp.mean = gNoNa.reduce_skip_missing ROp.mean :=
  ⟨by decide, reduce_agrees_skip_no_missing gNoNa ROp.mean (by decide)⟩

/-- Claim C7: drop_rows always succeeds — labels absent from the frame are
ignored (dropping a list of labels equals dropping only its known labels) —
the result contains no row whose label is among the dropped ones, and the
remaining label-row pairs keep their original relative order (they form a
sublist of the original pairs). -/
theorem drop_rows_ignores_unknown (f : TabularFrame) (dels : List Nat) :
    f.drop_rows dels = f.drop_rows (dels.filter (fun d => decide (d ∈ f.labels))) ∧
    (∀ lab ∈ (f.drop_rows dels).labels, lab ∉ dels) ∧
    ((f.drop_rows dels).labels.zip (f.drop_rows dels).rows).Sublist
      (f.labels.zip f.rows) := by
  have hfi : (f.labels.zip f.rows).filter (fun p => decide (p.1 ∉ dels)) =
      (f.labels.zip f.rows).filter
        (fun p => decide (p.1 ∉ dels.filter (fun d => decide (d ∈ f.labels)))) := by
    apply List.filter_congr
    intro x hx
    have hx1 : x.1 ∈ f.labels := (List.of_mem_zip hx).1
    have hiff : x.1 ∈ dels ↔ x.1 ∈ dels.filter (fun d => decide (d ∈ f.labels)) := by
      simp [List.mem_filter, hx1]
    exact decide_eq_decide.mpr (not_congr hiff)
  refine ⟨?_, ?_, ?_⟩
  · simp only [TabularFrame.drop_rows]
    rw [hfi]
  · intro lab hmem
    simp only [TabularFrame.drop_rows, List.mem_map] at hmem
    obtain ⟨p, hp, hfst⟩ := hmem
    have hdec := (List.mem_filter.mp hp).2
    rw [decide_eq_true_iff] at hdec
    exact hfst ▸ hdec
  · have hz : (f.drop_rows dels).labels.zip (f.drop_rows dels).rows =
        (f.labels.zip f.rows).filter (fun p => decide (p.1 ∉ dels)) := by
      simp only [TabularFrame.drop_rows]
      rw [List.zip_map']
      simp only [Prod.mk.eta, List.map_id']
    rw [hz]
    exact List.filter_sublist _

/-- The value of the named column in a row, read through the frame's column
order; an unknown column or a short row reads as the missing marker. -/
def colVal (cols : List String) (c : String) (row : List Val) : Val :=
  match cols.indexOf? c with
  | some i => row.getD i Val.na
  | none => Val.na

/-- Remove the entry at the given optional position; used to strip the key
column from the right frame's columns and rows. -/
def eraseIdxO {α : Type} (oi : Option Nat) (l : List α) : List α :=
  match oi with
  | some i => l.eraseIdx i
  | none => l

/-- Modelled from the spec: the two join modes of merge. -/
inductive How where
  | left
  | inner
deriving DecidableEq

/-- The rows of the frame R whose value in the key column equals v, in R's
row order. -/
def matching (R : TabularFrame) (k : String) (v : Val) : List (List Val) :=
  R.rows.filter (fun r => decide (colVal R.columns k r = v))

/-- One left row's contribution to the join output: one output row per
matching right row, in the right frame's order; for a left join only, a
single row padded with missing markers when there is no match. -/
def mergeBlock (how : How) (ri : Option Nat) (pad : Nat)
    (ms : List (List Val)) (l : List Val) : List (List Val) :=
  match how, ms with
  | How.left, [] => [l ++ List.replicate pad Val.na]
  | _, _ => ms.map (fun r => l ++ eraseIdxO ri r)

/-- Modelled from the spec: merge(left, right, on = k, how).  Processing left
rows in their original order, each left row contributes one output row per
matching right row (cartesian expansion, in the right frame's order); with a
left join an unmatched left row is kept once, its right non-key columns all
missing markers, while an inner join drops it.  The output columns are the
left columns followed by the right non-key columns; the geometry designation
is preserved from the side that carries it; row labels are freshly assigned
positions. -/
def merge (L R : TabularFrame) (k : String) (how : How) : TabularFrame :=
  { columns := L.columns ++ eraseIdxO (R.columns.indexOf? k) R.columns
    labels := List.range (L.rows.flatMap (fun l =>
        mergeBlock how (R.columns.indexOf? k)
          (eraseIdxO (R.columns.indexOf? k) R.columns).length
          (matching R k (colVal L.columns k l)) l)).length
    rows := L.rows.flatMap (fun l =>
        mergeBlock how (R.columns.indexOf? k)
          (eraseIdxO (R.columns.indexOf? k) R.columns).length
          (matching R k (colVal L.columns k l)) l)
    geometry := match L.geometry with
      | some gc => some gc
      | none => R.geometry }

theorem mergeBlock_inner (ri : Option Nat) (pad : Nat) (ms : List (List Val))
    (l : List Val) :
    mergeBlock How.inner ri pad ms l = ms.map (fun r => l ++ eraseIdxO ri r) := by
  cases ms <;> rfl

theorem mergeBlock_left_cons (ri : Option Nat) (pad : Nat) (m : List Val)
    (ms : List (List Val)) (l : List Val) :
    mergeBlock How.left ri pad (m :: ms) l =
      (m :: ms).map (fun r => l ++ eraseIdxO ri r) := rfl

theorem mergeBlock_mem_append (how : How) (ri : Option Nat) (pad : Nat)
    (ms : List (List Val)) (l x : List Val) (hx : x ∈ mergeBlock how ri pad ms l) :
    ∃ s, x = l ++ s := by
  cases how with
  | left =>
    cases ms with
    | nil =>
      simp only [mergeBlock, List.mem_singleton] at hx
      exact ⟨List.replicate pad Val.na, hx⟩
    | cons m ms2 =>
      rw [mergeBlock_left_cons] at hx
      obtain ⟨r, _, hr⟩ := List.mem_map.mp hx
      exact ⟨eraseIdxO ri r, hr.symm⟩
  | inner =>
    rw [mergeBlock_inner] at hx
    obtain ⟨r, _, hr⟩ := List.mem_map.mp hx
    exact ⟨eraseIdxO ri r, hr.symm⟩

theorem mergeBlock_left_ne_nil (ri : Option Nat) (pad : Nat)
    (ms : List (List Val)) (l : List Val) :
    1 ≤ (mergeBlock How.left ri pad ms l).length := by
  cases ms with
  | nil => simp [mergeBlock]
  | cons m ms2 => rw [mergeBlock_left_cons]; simp

theorem map_sublist_flatMap {α β : Type} (l : List α) (F : α → List β) (gf : α → β)
    (h : ∀ a ∈ l, gf a ∈ F a) : (l.map gf).Sublist (l.flatMap F) := by
  induction l with
  | nil => simp
  | cons x xs ih =>
    simp only [List.map_cons, List.flatMap_cons]
    have h1 : [gf x].Sublist (F x) :=
      List.singleton_sublist.mpr (h x (List.mem_cons_self x xs))
    have h2 : (xs.map gf).Sublist (xs.flatMap F) :=
      ih (fun a ha => h a (List.mem_cons_of_mem x ha))
    exact List.Sublist.append h1 h2

theorem length_le_length_flatMap {α β : Type} (l : List α) (F : α → List β)
    (h : ∀ a ∈ l, 1 ≤ (F a).length) : l.length ≤ (l.flatMap F).length := by
  induction l with
  | nil => simp
  | cons x xs ih =>
    simp only [List.flatMap_cons, List.length_append, List.length_cons]
    have h1 := h x (List.mem_cons_self x xs)
    have h2 := ih (fun a ha => h a (List.mem_cons_of_mem x ha))
    omega

theorem length_flatMap_of_forall_one {α β : Type} (l : List α) (F : α → List β)
    (h : ∀ a ∈ l, (F a).length = 1) : (l.flatMap F).length = l.length := by
  induction l with
  | nil => simp
  | cons x xs ih =>
    simp only [List.flatMap_cons, List.length_append, List.length_cons]
    have h1 := h x (List.mem_cons_self x xs)
    have h2 := ih (fun a ha => h a (List.mem_cons_of_mem x ha))
    omega

/-- Claim C1: for every left frame L (whose rows match its column count),
right frame R and shared key column k, the left join keeps every row of L at
least once, in L's original order (the rows of L form a sublist of the output
rows' left parts); the output has at least len(L) rows, and exactly len(L)
when R has at most one matching row per key; and a left row with no match
appears padded with missing markers in the right non-key columns. -/
theorem merge_left_keeps_left_rows (L R : TabularFrame) (k : String)
    (hrw : ∀ row ∈ L.rows, row.length = L.columns.length) :
    L.rows.Sublist ((merge L R k How.left).rows.map
      (List.take L.columns.length)) ∧
    L.rows.length ≤ (merge L R k How.left).rows.length ∧
    ((∀ l ∈ L.rows, (matching R k (colVal L.columns k l)).length ≤ 1) →
      (merge L R k How.left).rows.length = L.rows.length) ∧
    (∀ l ∈ L.rows, matching R k (colVal L.columns k l) = [] →
      l ++ List.replicate (eraseIdxO (R.columns.indexOf? k) R.columns).length Val.na
        ∈ (merge L R k How.left).rows) := by
  have hrows : (merge L R k How.left).rows = L.rows.flatMap (fun l =>
      mergeBlock How.left (R.columns.indexOf? k)
        (eraseIdxO (R.columns.indexOf? k) R.columns).length
        (matching R k (colVal L.columns k l)) l) := rfl
  refine ⟨?_, ?_, ?_, ?_⟩
  · rw [hrows, List.map_flatMap]
    have hsub := map_sublist_flatMap L.rows
      (fun l => (mergeBlock How.left (R.columns.indexOf? k)
        (eraseIdxO (R.columns.indexOf? k) R.columns).length
        (matching R k (colVal L.columns k l)) l).map (List.take L.columns.length))
      id ?_
    · simpa using hsub
    · intro l hl
      have hne := mergeBlock_left_ne_nil (R.columns.indexOf? k)
        (eraseIdxO (R.columns.indexOf? k) R.columns).length
        (matching R k (colVal L.columns k l)) l
      obtain ⟨x, hx⟩ := List.exists_mem_of_length_pos hne
      obtain ⟨s, hs⟩ := mergeBlock_mem_append _ _ _ _ _ _ hx
      refine List.mem_map.mpr ⟨x, hx, ?_⟩
      rw [hs, ← hrw l hl, List.take_left]
      rfl
  · rw [hrows]
    exact length_le_length_flatMap L.rows _ (fun l _ =>
      mergeBlock_left_ne_nil (R.columns.indexOf? k)
        (eraseIdxO (R.columns.indexOf? k) R.columns).length
        (matching R k (colVal L.columns k l)) l)
  · intro hone
    rw [hrows]
    refine length_flatMap_of_forall_one L.rows _ (fun l hl => ?_)
    rcases hms : matching R k (colVal L.columns k l) with _ | ⟨m, ms2⟩
    · simp [mergeBlock]
    · have hlen := hone l hl
      rw [hms] at hlen
      simp only [List.length_cons] at hlen
      have hnil : ms2 = [] := List.length_eq_zero.mp (by omega)
      rw [hnil, mergeBlock_left_cons]
      simp
  · intro l hl hempty
    rw [hrows]
    refine List.mem_flatMap.mpr ⟨l, hl, ?_⟩
    rw [hempty]
    simp [mergeBlock]

/-- A one-row left frame keyed by name_long, used in the join examples. -/
def lEx : TabularFrame :=
  { columns := ["name_long"]
    labels := [0]
    rows := [[Val.str "x"]]
    geometry := none }

/-- A right frame holding two rows that both match the single left key. -/
def rEx : TabularFrame :=
  { columns := ["name_long", "coffee"]
    labels := [0, 1]
    rows := [[Val.str "x", Val.num 1], [Val.str "x", Val.num 2]]
    geometry := none }

theorem merge_left_keeps_left_rows_witness :
    (∀ row ∈ fEx.rows, row.length = fEx.columns.length) ∧
    (fEx.rows.Sublist ((merge fEx rEx "name_long" How.left).rows.map
      (List.take fEx.columns.length)) ∧
    fEx.rows.length ≤ (merge fEx rEx "name_long" How.left).rows.length ∧
    ((∀ l ∈ fEx.rows, (matching rEx "name_long" (colVal fEx.columns "name_long" l)).length ≤ 1) →
      (merge fEx rEx "name_long" How.left).rows.length = fEx.rows.length) ∧
    (∀ l ∈ fEx.rows, matching rEx "name_long" (colVal fEx.columns "name_long" l) = [] →
      l ++ List.replicate
          (eraseIdxO (rEx.columns.indexOf? "name_long") rEx.columns).length Val.na
        ∈ (merge fEx rEx "name_long" How.left).rows)) :=
  ⟨by decide, merge_left_keeps_left_rows fEx rEx "name_long" (by decide)⟩

/-- The number of rows of the left frame with at least one key match in the
right frame. -/
def matchCountL (L R : TabularFrame) (k : String) : Nat :=
  (L.rows.filter (fun l => decide (matching R k (colVal L.columns k l) ≠ []))).length

/-- The number of rows of the right frame with at least one key match in the
left frame. -/
def matchCountR (L R : TabularFrame) (k : String) : Nat :=
  (R.rows.filter (fun r => decide (matching L k (colVal R.columns k r) ≠ []))).length

/-- Claim C8, counterexample: with one left row matched by two right rows the
inner join has two rows, exceeding the minimum of the matching-row counts
(which is one) — so the claimed length bound fails. -/
theorem merge_inner_min_bound_cex :
    (merge lEx rEx "name_long" How.inner).rows.length = 2 ∧
    min (matchCountL lEx rEx "name_long") (matchCountR lEx rEx "name_long") = 1 ∧
    ¬ (merge lEx rEx "name_long" How.inner).rows.length ≤
      min (matchCountL lEx rEx "name_long") (matchCountR lEx rEx "name_long") := by
  decide

/-- Claim C8, amended: the inner join contains no row derived from a left row
with zero matches in R — every output row's left part is a left row with at
least one match — and it keeps exactly the matching rows, in L's original row
order, one output row per matching right row; consequently its length equals
the total number of key-matching left/right row pairs, hence is at most
len(L) * len(R). -/
theorem merge_inner_matched_only (L R : TabularFrame) (k : String)
    (hrw : ∀ row ∈ L.rows, row.length = L.columns.length) :
    (∀ row ∈ (merge L R k How.inner).rows, ∃ l ∈ L.rows,
      row.take L.columns.length = l ∧ matching R k (colVal L.columns k l) ≠ []) ∧
    (merge L R k How.inner).rows.map (List.take L.columns.length) =
      L.rows.flatMap (fun l =>
        List.replicate (matching R k (colVal L.columns k l)).length l) ∧
    (merge L R k How.inner).rows.length =
      (L.rows.map (fun l => (matching R k (colVal L.columns k l)).length)).sum ∧
    (merge L R k How.inner).rows.length ≤ L.rows.length * R.rows.length := by
  have hrows : (merge L R k How.inner).rows = L.rows.flatMap (fun l =>
      mergeBlock How.inner (R.columns.indexOf? k)
        (eraseIdxO (R.columns.indexOf? k) R.columns).length
        (matching R k (colVal L.columns k l)) l) := rfl
  have hlen : (merge L R k How.inner).rows.length =
      (L.rows.map (fun l => (matching R k (colVal L.columns k l)).length)).sum := by
    rw [hrows, List.length_flatMap]
    apply congrArg List.sum
    apply List.map_congr_left
    intro l _
    show (mergeBlock How.inner (R.columns.indexOf? k)
      (eraseIdxO (R.columns.indexOf? k) R.columns).length
      (matching R k (colVal L.columns k l)) l).length =
      (matching R k (colVal L.columns k l)).length
    rw [mergeBlock_inner, List.length_map]
  refine ⟨?_, ?_, hlen, ?_⟩
  · intro row hrow
    rw [hrows] at hrow
    obtain ⟨l, hl, hx⟩ := List.mem_flatMap.mp hrow
    rw [mergeBlock_inner] at hx
    obtain ⟨r, hr, heq⟩ := List.mem_map.mp hx
    refine ⟨l, hl, ?_, List.ne_nil_of_mem hr⟩
    rw [← heq, ← hrw l hl, List.take_left]
  · rw [hrows, List.map_flatMap, List.flatMap_def, List.flatMap_def]
    apply congrArg List.flatten
    apply List.map_congr_left
    intro l hl
    rw [mergeBlock_inner, List.map_map]
    have hmc : ((matching R k (colVal L.columns k l)).map
        (List.take L.columns.length ∘ fun r => l ++ eraseIdxO (R.columns.indexOf? k) r)) =
        (matching R k (colVal L.columns k l)).map (fun _ => l) := by
      apply List.map_congr_left
      intro r _
      show (l ++ eraseIdxO (R.columns.indexOf? k) r).take L.columns.length = l
      rw [← hrw l hl, List.take_left]
    rw [hmc, List.map_const']
  · rw [hlen]
    have hb := List.sum_le_card_nsmul
      (L.rows.map (fun l => (matching R k (colVal L.columns k l)).length))
      R.rows.length ?_
    · rw [List.length_map, smul_eq_mul] at hb
      exact hb
    · intro x hx
      obtain ⟨l, _, hxl⟩ := List.mem_map.mp hx
      rw [← hxl]
      exact List.length_filter_le _ _

theorem merge_inner_matched_only_witness :
    (∀ row ∈ lEx.rows, row.length = lEx.columns.length) ∧
    ((∀ row ∈ (merge lEx rEx "name_long" How.inner).rows, ∃ l ∈ lEx.rows,
      row.take lEx.columns.length = l ∧
        matching rEx "name_long" (colVal lEx.columns "name_long" l) ≠ []) ∧
    (merge lEx rEx "name_long" How.inner).rows.map (List.take lEx.columns.length) =
      lEx.rows.flatMap (fun l =>
        List.replicate (matching rEx "name_long" (colVal lEx.columns "name_long" l)).length l) ∧
    (merge lEx rEx "name_long" How.inner).rows.length =
      (lEx.rows.map (fun l =>
        (matching rEx "name_long" (colVal lEx.columns "name_long" l)).length)).sum ∧
    (merge lEx rEx "name_long" How.inner).rows.length ≤
      lEx.rows.length * rEx.rows.length) :=
  ⟨by decide, merge_inner_matched_only lEx rEx "name_long" (by decide)⟩

/-- The numeric payload of a cell, when the cell is a number. -/
def toNum (v : Val) : Option ℤ :=
  match v with
  | Val.num z => some z
  | _ => none

/-- The numeric value of a cell, defaulting to 0; group_sum only reads it
after checking that every cell of the value columns is numeric. -/
def toNumD (v : Val) : ℤ :=
  match v with
  | Val.num z => z
  | _ => 0

/-- Whether a cell is numeric. -/
def isNum (v : Val) : Bool :=
  match v with
  | Val.num _ => true
  | _ => false

/-- The tuple of values of one row in the group columns. -/
def keyTuple (cols gcols : List String) (row : List Val) : List Val :=
  gcols.map (fun c => colVal cols c row)

/-- The distinct elements of a list in order of first appearance, gathered by
a single left-to-right scan that appends each yet-unseen element. -/
def firstKeys {κ : Type} [DecidableEq κ] (l : List κ) : List κ :=
  l.foldl (fun acc k => if k ∈ acc then acc else acc ++ [k]) []

/-- Order of first appearance, characterised recursively: the head comes
first, followed by the first appearances of the tail with the head's later
occurrences removed. -/
def keysInOrder {κ : Type} [DecidableEq κ] : List κ → List κ
  | [] => []
  | k :: ks => k :: keysInOrder (ks.filter (fun x => decide (x ≠ k)))
termination_by l => l.length
decreasing_by
  simp only [List.length_cons]
  exact Nat.lt_succ_of_le (List.length_filter_le _ _)

theorem mem_foldl_firstKeys {κ : Type} [DecidableEq κ] (l : List κ) :
    ∀ (acc : List κ) (x : κ),
      x ∈ l.foldl (fun a k => if k ∈ a then a else a ++ [k]) acc ↔ x ∈ acc ∨ x ∈ l := by
  induction l with
  | nil => intro acc x; simp
  | cons k ks ih =>
    intro acc x
    rw [List.foldl_cons]
    by_cases hk : k ∈ acc
    · rw [if_pos hk, ih acc x]
      constructor
      · rintro (hx | hx)
        · exact Or.inl hx
        · exact Or.inr (List.mem_cons_of_mem k hx)
      · rintro (hx | hx)
        · exact Or.inl hx
        · rcases List.mem_cons.mp hx with hx | hx
          · exact Or.inl (hx ▸ hk)
          · exact Or.inr hx
    · rw [if_neg hk, ih (acc ++ [k]) x]
      constructor
      · rintro (hx | hx)
        · rcases List.mem_append.mp hx with hx | hx
          · exact Or.inl hx
          · exact Or.inr (List.mem_cons.mpr (Or.inl (List.mem_singleton.mp hx)))
        · exact Or.inr (List.mem_cons_of_mem k hx)
      · rintro (hx | hx)
        · exact Or.inl (List.mem_append.mpr (Or.inl hx))
        · rcases List.mem_cons.mp hx with hx | hx
          · exact Or.inl (List.mem_append.mpr (Or.inr (List.mem_singleton.mpr hx)))
          · exact Or.inr hx

theorem mem_firstKeys_iff {κ : Type} [DecidableEq κ] (l : List κ) (x : κ) :
    x ∈ firstKeys l ↔ x ∈ l := by
  rw [firstKeys, mem_foldl_firstKeys l [] x]
  simp

theorem nodup_foldl_firstKeys {κ : Type} [DecidableEq κ] (l : List κ) :
    ∀ acc : List κ, acc.Nodup →
      (l.foldl (fun a k => if k ∈ a then a else a ++ [k]) acc).Nodup := by
  induction l with
  | nil => intro acc h; simpa using h
  | cons k ks ih =>
    intro acc hacc
    rw [List.foldl_cons]
    by_cases hk : k ∈ acc
    · rw [if_pos hk]; exact ih acc hacc
    · rw [if_neg hk]
      refine ih (acc ++ [k]) ?_
      rw [List.nodup_append]
      refine ⟨hacc, List.nodup_singleton k, ?_⟩
      intro a ha hb
      rw [List.mem_singleton] at hb
      exact hk (hb ▸ ha)

theorem nodup_firstKeys {κ : Type} [DecidableEq κ] (l : List κ) :
    (firstKeys l).Nodup :=
  nodup_foldl_firstKeys l [] List.nodup_nil

theorem foldl_firstKeys_eq {κ : Type} [DecidableEq κ] (l : List κ) :
    ∀ acc : List κ,
      l.foldl (fun a k => if k ∈ a then a else a ++ [k]) acc =
        acc ++ keysInOrder (l.filter (fun x => decide (x ∉ acc))) := by
  induction l with
  | nil => intro acc; simp [keysInOrder]
  | cons k ks ih =>
    intro acc
    rw [List.foldl_cons]
    by_cases hk : k ∈ acc
    · rw [if_pos hk, ih acc]
      have hf : (k :: ks).filter (fun x => decide (x ∉ acc)) =
          ks.filter (fun x => decide (x ∉ acc)) := by
        rw [List.filter_cons]
        simp [hk]
      rw [hf]
    · rw [if_neg hk, ih (acc ++ [k])]
      have hf : (k :: ks).filter (fun x => decide (x ∉ acc)) =
          k :: ks.filter (fun x => decide (x ∉ acc)) := by
        rw [List.filter_cons]
        simp [hk]
      rw [hf]
      have hk2 : keysInOrder (k :: ks.filter (fun x => decide (x ∉ acc))) =
          k :: keysInOrder ((ks.filter (fun x => decide (x ∉ acc))).filter
            (fun x => decide (x ≠ k))) := by
        simp [keysInOrder]
      rw [hk2, List.filter_filter]
      have hpred : ks.filter (fun a => decide (a ≠ k) && decide (a ∉ acc)) =
          ks.filter (fun x => decide (x ∉ acc ++ [k])) := by
        apply List.filter_congr
        intro x _
        by_cases h1 : x = k
        · simp [h1]
        · by_cases h2 : x ∈ acc <;> simp [h1, h2]
      rw [hpred, List.append_assoc, List.singleton_append]

theorem firstKeys_eq_keysInOrder {κ : Type} [DecidableEq κ] (l : List κ) :
    firstKeys l = keysInOrder l := by
  rw [firstKeys, foldl_firstKeys_eq l []]
  have hf : l.filter (fun x => decide (x ∉ ([] : List κ))) = l := by
    apply List.filter_eq_self.mpr
    intro x _
    simp
  rw [hf, List.nil_append]

theorem sum_map_filter_add_not {α : Type} (p : α → Bool) (v : α → ℤ) (l : List α) :
    ((l.filter p).map v).sum + ((l.filter (fun x => !p x)).map v).sum = (l.map v).sum := by
  induction l with
  | nil => simp
  | cons x xs ih =>
    cases hp : p x
    · simp only [List.filter_cons, hp, Bool.not_false, if_true, if_false,
        Bool.false_eq_true, List.map_cons, List.sum_cons]
      rw [← ih]
      ring
    · simp only [List.filter_cons, hp, Bool.not_true, if_true, if_false,
        Bool.false_eq_true, List.map_cons, List.sum_cons]
      rw [← ih]
      ring

theorem sum_over_keysInOrder {α κ : Type} [DecidableEq κ] (key : α → κ) (v : α → ℤ) :
    ∀ l : List α,
      ((keysInOrder (l.map key)).map (fun kk =>
        ((l.filter (fun a => decide (key a = kk))).map v).sum)).sum = (l.map v).sum := by
  suffices hs : ∀ (n : Nat) (l : List α), l.length ≤ n →
      ((keysInOrder (l.map key)).map (fun kk =>
        ((l.filter (fun a => decide (key a = kk))).map v).sum)).sum = (l.map v).sum by
    intro l
    exact hs l.length l le_rfl
  intro n
  induction n with
  | zero =>
    intro l hl
    have hnil : l = [] := List.eq_nil_of_length_eq_zero (Nat.le_zero.mp hl)
    subst hnil
    simp [keysInOrder]
  | succ n ih =>
    intro l hl
    cases l with
    | nil => simp [keysInOrder]
    | cons x xs =>
      have hko : keysInOrder ((x :: xs).map key) =
          key x :: keysInOrder ((xs.map key).filter (fun kk => decide (kk ≠ key x))) := by
        simp [keysInOrder]
      have hfm : (xs.map key).filter (fun kk => decide (kk ≠ key x)) =
          (xs.filter (fun y => decide (key y ≠ key x))).map key :=
        List.filter_map key xs
      rw [hko, hfm, List.map_cons, List.sum_cons]
      have hhead : (((x :: xs).filter (fun a => decide (key a = key x))).map v).sum
          = v x + ((xs.filter (fun a => decide (key a = key x))).map v).sum := by
        rw [List.filter_cons]
        simp
      have htail : (keysInOrder ((xs.filter (fun y => decide (key y ≠ key x))).map key)).map
            (fun kk => (((x :: xs).filter (fun a => decide (key a = kk))).map v).sum) =
          (keysInOrder ((xs.filter (fun y => decide (key y ≠ key x))).map key)).map
            (fun kk => (((xs.filter (fun y => decide (key y ≠ key x))).filter
              (fun a => decide (key a = kk))).map v).sum) := by
        apply List.map_congr_left
        intro kk hkk
        rw [← firstKeys_eq_keysInOrder] at hkk
        have hkk2 : kk ∈ (xs.filter (fun y => decide (key y ≠ key x))).map key :=
          (mem_firstKeys_iff _ _).mp hkk
        obtain ⟨y, hy, hyk⟩ := List.mem_map.mp hkk2
        have hyne : key y ≠ key x := by
          have hb := (List.mem_filter.mp hy).2
          simpa using hb
        have hkkne : kk ≠ key x := hyk ▸ hyne
        have h1 : (x :: xs).filter (fun a => decide (key a = kk)) =
            xs.filter (fun a => decide (key a = kk)) := by
          rw [List.filter_cons]
          simp [Ne.symm hkkne]
        have h2 : xs.filter (fun a => decide (key a = kk)) =
            (xs.filter (fun y => decide (key y ≠ key x))).filter
              (fun a => decide (key a = kk)) := by
          rw [List.filter_filter]
          apply List.filter_congr
          intro a _
          by_cases hak : key a = kk
          · have hane : key a ≠ key x := hak ▸ hkkne
            simp [hak, hane, hkkne]
          · simp [hak]
        rw [h1, h2]
      rw [htail]
      have hlenxs : xs.length ≤ n := by
        simp only [List.length_cons] at hl
        omega
      have hlen : (xs.filter (fun y => decide (key y ≠ key x))).length ≤ n :=
        le_trans (List.length_filter_le _ _) hlenxs
      rw [ih _ hlen, hhead, List.map_cons, List.sum_cons]
      have hnn : xs.filter (fun y => decide (key y ≠ key x)) =
          xs.filter (fun a => !decide (key a = key x)) := by
        apply List.filter_congr
        intro a _
        simp [decide_not]
      rw [hnn]
      have hpart := sum_map_filter_add_not (fun a => decide (key a = key x)) v xs
      omega

/-- Modelled from the spec: grouped numeric aggregation group_sum — rows are
partitioned by the tuple of values in the group columns, with one output row
per distinct group tuple in order of first appearance, and each value column
summed within its group; a non-numeric cell in a value column fails with a
TypeError-kind error.  Output columns are the group columns followed by the
value columns, row labels are fresh positions, and the output carries no
geometry designation. -/
def group_sum (f : TabularFrame) (gcols vcols : List String) :
    Except ErrKind TabularFrame :=
  if f.rows.all (fun row => vcols.all (fun c => isNum (colVal f.columns c row))) then
    Except.ok
      { columns := gcols ++ vcols
        labels := List.range (firstKeys (f.rows.map (keyTuple f.columns gcols))).length
        rows := (firstKeys (f.rows.map (keyTuple f.columns gcols))).map (fun kt =>
          kt ++ vcols.map (fun c => Val.num
            (((f.rows.filter (fun row =>
                decide (keyTuple f.columns gcols row = kt))).map
              (fun row => toNumD (colVal f.columns c row))).sum)))
        geometry := none }
  else Except.error ErrKind.typeError

/-- Modelled from the spec: the aggregation functions accepted by
dissolve. -/
inductive AggFun where
  | count
  | sum
  | min
  | max
  | mean
  | first
  | last
deriving DecidableEq

/-- Modelled from the spec: one aggregation function applied to a column's
values within a group — count counts non-missing entries, sum, min, max and
mean read the numeric entries (yielding the marker over an empty group), and
first and last pick the boundary entries. -/
def applyAgg : AggFun → List Val → Val
  | AggFun.count, vs => Val.num ((vs.countP (fun v => decide (v ≠ Val.na))) : ℤ)
  | AggFun.sum, vs => Val.num ((vs.filterMap toNum).sum)
  | AggFun.mean, vs =>
    match vs.filterMap toNum with
    | [] => Val.na
    | z :: zs => Val.num ((z :: zs).sum / (z :: zs).length)
  | AggFun.min, vs =>
    match vs.filterMap toNum with
    | [] => Val.na
    | z :: zs => Val.num (zs.foldl Min.min z)
  | AggFun.max, vs =>
    match vs.filterMap toNum with
    | [] => Val.na
    | z :: zs => Val.num (zs.foldl Max.max z)
  | AggFun.first, vs => vs.headD Val.na
  | AggFun.last, vs => vs.getLastD Val.na

/-- Modelled from the spec: dissolve — grouped aggregation like group_sum but
with a per-column aggregation function, and, when a geometry column is
designated, the geometry values of each group combined into one value by the
injected geometry-union capability.  Output row order follows first
appearance of each group key. -/
def dissolve (f : TabularFrame) (gcols : List String)
    (aggs : List (String × AggFun)) (unionG : List Val → Val) : TabularFrame :=
  { columns := gcols ++ aggs.map Prod.fst ++
      (match f.geometry with
       | some gc => [gc]
       | none => [])
    labels := List.range (firstKeys (f.rows.map (keyTuple f.columns gcols))).length
    rows := (firstKeys (f.rows.map (keyTuple f.columns gcols))).map (fun kt =>
      kt ++ aggs.map (fun ca => applyAgg ca.2
          ((f.rows.filter (fun row =>
            decide (keyTuple f.columns gcols row = kt))).map
            (colVal f.columns ca.1))) ++
        (match f.geometry with
         | some gc => [unionG
            ((f.rows.filter (fun row =>
              decide (keyTuple f.columns gcols row = kt))).map
              (colVal f.columns gc))]
         | none => []))
    geometry := f.geometry }

/-- The continent/population frame of the spec's concrete aggregation
scenario. -/
def worldEx : TabularFrame :=
  { columns := ["continent", "pop"]
    labels := [0, 1, 2]
    rows := [[Val.str "Asia", Val.num 10], [Val.str "Asia", Val.num 20],
      [Val.str "Europe", Val.num 5]]
    geometry := none }

/-- The expected aggregation result of the concrete scenario. -/
def worldAgg : TabularFrame :=
  { columns := ["continent", "pop"]
    labels := [0, 1]
    rows := [[Val.str "Asia", Val.num 30], [Val.str "Europe", Val.num 5]]
    geometry := none }

theorem map_take_firstKeys (gcols cols : List String) (rows : List (List Val))
    (F : List Val → List Val) (hF : ∀ kt, ∃ s, F kt = kt ++ s) :
    ((firstKeys (rows.map (keyTuple cols gcols))).map F).map (List.take gcols.length) =
      keysInOrder (rows.map (keyTuple cols gcols)) := by
  rw [List.map_map]
  have hc : ∀ kt ∈ firstKeys (rows.map (keyTuple cols gcols)),
      (List.take gcols.length ∘ F) kt = id kt := by
    intro kt hkt
    have hmem := (mem_firstKeys_iff _ _).mp hkt
    obtain ⟨row, _, hk⟩ := List.mem_map.mp hmem
    have hlen : kt.length = gcols.length := by
      rw [← hk, keyTuple, List.length_map]
    obtain ⟨s, hs⟩ := hF kt
    show (F kt).take gcols.length = kt
    rw [hs, ← hlen, List.take_left]
  rw [List.map_congr_left hc, List.map_id, firstKeys_eq_keysInOrder]

/-- Claim C5: for every frame and every choice of group columns, the output
rows of grouped aggregation — group_sum whenever it succeeds, and dissolve —
appear in the order of first appearance of each distinct group-key tuple in
the input frame: their group-key parts are exactly the first-appearance
deduplication (keysInOrder) of the input rows' key tuples. -/
theorem grouped_rows_first_appearance (f : TabularFrame)
    (gcols vcols : List String) (aggs : List (String × AggFun))
    (unionG : List Val → Val) (g2 : TabularFrame)
    (hok : group_sum f gcols vcols = Except.ok g2) :
    g2.rows.map (List.take gcols.length) =
      keysInOrder (f.rows.map (keyTuple f.columns gcols)) ∧
    (dissolve f gcols aggs unionG).rows.map (List.take gcols.length) =
      keysInOrder (f.rows.map (keyTuple f.columns gcols)) := by
  constructor
  · rw [group_sum] at hok
    by_cases hnum : f.rows.all (fun row =>
        vcols.all (fun c => isNum (colVal f.columns c row))) = true
    · rw [if_pos hnum, Except.ok.injEq] at hok
      rw [← hok]
      exact map_take_firstKeys gcols f.columns f.rows _ (fun kt => ⟨_, rfl⟩)
    · rw [if_neg hnum] at hok
      exact Except.noConfusion hok
  · show ((firstKeys (f.rows.map (keyTuple f.columns gcols))).map (fun kt =>
      kt ++ aggs.map (fun ca => applyAgg ca.2
          ((f.rows.filter (fun row =>
            decide (keyTuple f.columns gcols row = kt))).map
            (colVal f.columns ca.1))) ++
        (match f.geometry with
         | some gc => [unionG
            ((f.rows.filter (fun row =>
              decide (keyTuple f.columns gcols row = kt))).map
              (colVal f.columns gc))]
         | none => []))).map (List.take gcols.length) =
      keysInOrder (f.rows.map (keyTuple f.columns gcols))
    exact map_take_firstKeys gcols f.columns f.rows _
      (fun kt => ⟨_, List.append_assoc _ _ _⟩)

theorem grouped_rows_first_appearance_witness :
    group_sum worldEx ["continent"] ["pop"] = Except.ok worldAgg ∧
    (worldAgg.rows.map (List.take (["continent"]).length) =
      keysInOrder (worldEx.rows.map (keyTuple worldEx.columns ["continent"])) ∧
    (dissolve worldEx ["continent"] [("pop", AggFun.sum)]
        (fun _ => Val.na)).rows.map (List.take (["continent"]).length) =
      keysInOrder (worldEx.rows.map (keyTuple worldEx.columns ["continent"]))) :=
  ⟨rfl, grouped_rows_first_appearance worldEx ["continent"] ["pop"]
    [("pop", AggFun.sum)] (fun _ => Val.na) worldAgg rfl⟩

/-- Claim C6: on a frame whose value columns are all numeric, group_sum
succeeds and produces exactly one row per distinct group-key tuple — the key
parts of the output rows are pairwise distinct and are exactly the key
tuples occurring in the input — and the sum of each value column over the
result equals the sum of that column over the original frame; in particular,
on the concrete frame with continent = [Asia, Asia, Europe] and
pop = [10, 20, 5], grouping by continent and summing pop yields exactly the
rows (Asia, 30) and (Europe, 5), in that order. -/
theorem group_sum_conserves_totals (f : TabularFrame) (gcols vcols : List String)
    (hnum : f.rows.all (fun row =>
      vcols.all (fun c => isNum (colVal f.columns c row))) = true) :
    ∃ g2, group_sum f gcols vcols = Except.ok g2 ∧
      (g2.rows.map (List.take gcols.length)).Nodup ∧
      (∀ kt, kt ∈ g2.rows.map (List.take gcols.length) ↔
        kt ∈ f.rows.map (keyTuple f.columns gcols)) ∧
      (∀ j, j < vcols.length →
        (g2.rows.map (fun r => toNumD (r.getD (gcols.length + j) Val.na))).sum =
          (f.rows.map (fun row =>
            toNumD (colVal f.columns (vcols.getD j "") row))).sum) ∧
      group_sum worldEx ["continent"] ["pop"] = Except.ok worldAgg := by
  have hok : group_sum f gcols vcols = Except.ok
      { columns := gcols ++ vcols
        labels := List.range (firstKeys (f.rows.map (keyTuple f.columns gcols))).length
        rows := (firstKeys (f.rows.map (keyTuple f.columns gcols))).map (fun kt =>
          kt ++ vcols.map (fun c => Val.num
            (((f.rows.filter (fun row =>
                decide (keyTuple f.columns gcols row = kt))).map
              (fun row => toNumD (colVal f.columns c row))).sum)))
        geometry := none } := by
    rw [group_sum, if_pos hnum]
  have hkp := map_take_firstKeys gcols f.columns f.rows
    (fun kt => kt ++ vcols.map (fun c => Val.num
      (((f.rows.filter (fun row =>
          decide (keyTuple f.columns gcols row = kt))).map
        (fun row => toNumD (colVal f.columns c row))).sum)))
    (fun kt => ⟨_, rfl⟩)
  refine ⟨_, hok, ?_, ?_, ?_, rfl⟩
  · show (((firstKeys (f.rows.map (keyTuple f.columns gcols))).map (fun kt =>
      kt ++ vcols.map (fun c => Val.num
        (((f.rows.filter (fun row =>
            decide (keyTuple f.columns gcols row = kt))).map
          (fun row => toNumD (colVal f.columns c row))).sum)))).map
      (List.take gcols.length)).Nodup
    rw [hkp, ← firstKeys_eq_keysInOrder]
    exact nodup_firstKeys _
  · intro kt
    show kt ∈ (((firstKeys (f.rows.map (keyTuple f.columns gcols))).map (fun kt2 =>
      kt2 ++ vcols.map (fun c => Val.num
        (((f.rows.filter (fun row =>
            decide (keyTuple f.columns gcols row = kt2))).map
          (fun row => toNumD (colVal f.columns c row))).sum)))).map
      (List.take gcols.length)) ↔ kt ∈ f.rows.map (keyTuple f.columns gcols)
    rw [hkp, ← firstKeys_eq_keysInOrder]
    exact mem_firstKeys_iff _ _
  · intro j hj
    show (((firstKeys (f.rows.map (keyTuple f.columns gcols))).map (fun kt =>
      kt ++ vcols.map (fun c => Val.num
        (((f.rows.filter (fun row =>
            decide (keyTuple f.columns gcols row = kt))).map
          (fun row => toNumD (colVal f.columns c row))).sum)))).map
      (fun r => toNumD (r.getD (gcols.length + j) Val.na))).sum =
        (f.rows.map (fun row =>
          toNumD (colVal f.columns (vcols.getD j "") row))).sum
    rw [List.map_map]
    have hcong : ∀ kt ∈ firstKeys (f.rows.map (keyTuple f.columns gcols)),
        ((fun r => toNumD (r.getD (gcols.length + j) Val.na)) ∘ (fun kt => 
          kt ++ vcols.map (fun c => Val.num
            (((f.rows.filter (fun row =>
                decide (keyTuple f.columns gcols row = kt))).map
              (fun row => toNumD (colVal f.columns c row))).sum)))) kt =
        (fun kt => ((f.rows.filter (fun row =>
            decide (keyTuple f.columns gcols row = kt))).map
          (fun row => toNumD (colVal f.columns (vcols.getD j "") row))).sum) kt := by
      intro kt hkt
      have hmem := (mem_firstKeys_iff _ _).mp hkt
      obtain ⟨row0, _, hk⟩ := List.mem_map.mp hmem
      have hlen : kt.length = gcols.length := by
        rw [← hk, keyTuple, List.length_map]
      show toNumD ((kt ++ vcols.map (fun c => Val.num
          (((f.rows.filter (fun row =>
              decide (keyTuple f.columns gcols row = kt))).map
            (fun row => toNumD (colVal f.columns c row))).sum))).getD
          (gcols.length + j) Val.na) =
        ((f.rows.filter (fun row =>
            decide (keyTuple f.columns gcols row = kt))).map
          (fun row => toNumD (colVal f.columns (vcols.getD j "") row))).sum
      rw [List.getD_append_right _ _ _ _ (by omega : kt.length ≤ gcols.length + j),
        hlen, Nat.add_sub_cancel_left]
      have hj2 : j < (vcols.map (fun c => Val.num
          (((f.rows.filter (fun row =>
              decide (keyTuple f.columns gcols row = kt))).map
            (fun row => toNumD (colVal f.columns c row))).sum))).length := by
        simpa using hj
      rw [List.getD_eq_getElem _ _ hj2, List.getElem_map,
        List.getD_eq_getElem vcols "" hj]
      rfl
    rw [List.map_congr_left hcong, firstKeys_eq_keysInOrder]
    exact sum_over_keysInOrder (keyTuple f.columns gcols)
      (fun row => toNumD (colVal f.columns (vcols.getD j "") row)) f.rows

theorem group_sum_conserves_totals_witness :
    worldEx.rows.all (fun row =>
      (["pop"]).all (fun c => isNum (colVal worldEx.columns c row))) = true ∧
    (∃ g2, group_sum worldEx ["continent"] ["pop"] = Except.ok g2 ∧
      (g2.rows.map (List.take (["continent"]).length)).Nodup ∧
      (∀ kt, kt ∈ g2.rows.map (List.take (["continent"]).length) ↔
        kt ∈ worldEx.rows.map (keyTuple worldEx.columns ["continent"])) ∧
      (∀ j, j < (["pop"]).length →
        (g2.rows.map (fun r =>
          toNumD (r.getD ((["continent"]).length + j) Val.na))).sum =
          (worldEx.rows.map (fun row =>
            toNumD (colVal worldEx.columns ((["pop"]).getD j "") row))).sum) ∧
      group_sum worldEx ["continent"] ["pop"] = Except.ok worldAgg) :=
  ⟨by decide, group_sum_conserves_totals worldEx ["continent"] ["pop"] (by decide)⟩
